import Mathlib

/-!
Verification of the squigglepy probability-mass-histogram core and of the
Bayesian-update helpers in `squigglepy/bayes.py`.

The histogram engine itself (`squigglepy/pdh.py`) is exercised only through
its behavioral tests in the available material, so its data model and
operations are modelled from the specification (spec.md §3–§4); the
Bayesian helpers are embedded directly from `squigglepy/bayes.py`.
Floating-point numbers are modelled as real numbers.
-/

namespace Squigglepy

/-- Modelled from the spec (§3, "Distribution capability"): the external
analytic-distribution interface consumed read-only by the histogram engine.
`cdf` is the cumulative distribution function (spec §4.2: bin mass is a
difference in cumulative probability, "derivable from `quantile`'s inverse,
i.e. the CDF"), `quantile` the inverse CDF, `exact_mean`/`exact_sd` the
closed-form moments, `ev_contribution x` the share of total expected value
contributed below `x`, and `inv_ev_contribution` its inverse. -/
structure DistCapability where
  cdf : ℝ → ℝ
  quantile : ℝ → ℝ
  exact_mean : ℝ
  exact_sd : ℝ
  ev_contribution : ℝ → ℝ
  inv_ev_contribution : ℝ → ℝ

/-- Modelled from the spec (§4.1): the bin-sizing policy, either equal
probability mass per bin or equal expected-value contribution per bin. -/
inductive BinSizing
  | mass
  | ev
deriving DecidableEq

/-- Modelled from the spec (§3, "Probability Mass Histogram"): an ordered
sequence of bins, each carrying a representative value and a probability
mass, plus two scalar side-channels holding the exact mean and exact
standard deviation of the distribution the histogram represents. -/
structure ProbabilityMassHistogram where
  bins : List (ℝ × ℝ)
  exact_mean : ℝ
  exact_sd : ℝ

/-- The representative values of the histogram's bins, in order. -/
def ProbabilityMassHistogram.values (h : ProbabilityMassHistogram) : List ℝ :=
  h.bins.map Prod.fst

/-- The probability masses of the histogram's bins, in order. -/
def ProbabilityMassHistogram.masses (h : ProbabilityMassHistogram) : List ℝ :=
  h.bins.map Prod.snd

/-- The number of bins of the histogram. -/
def ProbabilityMassHistogram.num_bins (h : ProbabilityMassHistogram) : ℕ :=
  h.bins.length

/-- Total probability mass carried by a list of (value, mass) bins. -/
def massSum (l : List (ℝ × ℝ)) : ℝ :=
  (l.map Prod.snd).sum

/-- Modelled from the spec (§4.1): boundary `i` of `n` bins, at
`quantile (i/n)` under the `mass` policy and `inv_ev_contribution (i/n)`
under the `ev` policy. -/
noncomputable def binEdge (D : DistCapability) (policy : BinSizing) (n i : ℕ) : ℝ :=
  match policy with
  | .mass => D.quantile ((i : ℝ) / n)
  | .ev => D.inv_ev_contribution ((i : ℝ) / n)

/-- Modelled from the spec (§4.2): bin `i` of `n`.  Its mass is the
difference in cumulative probability between its two boundaries, and its
representative value is the conditional mean of the distribution restricted
to the bin, computed via the EV-contribution function restricted to the
bin's sub-interval (bin expected value divided by bin mass). -/
noncomputable def binAt (D : DistCapability) (policy : BinSizing) (n i : ℕ) : ℝ × ℝ :=
  let lo := binEdge D policy n i
  let hi := binEdge D policy n (i + 1)
  let mass := D.cdf hi - D.cdf lo
  (D.exact_mean * (D.ev_contribution hi - D.ev_contribution lo) / mass, mass)

/-- Modelled from the spec (§4.2): `from_distribution` builds the `n`
consecutive bins from the bin-edge builder and copies `exact_mean` and
`exact_sd` directly from the distribution capability. -/
noncomputable def ProbabilityMassHistogram.from_distribution
    (D : DistCapability) (num_bins : ℕ) (bin_sizing : BinSizing) :
    ProbabilityMassHistogram :=
  { bins := (List.range num_bins).map (binAt D bin_sizing num_bins)
    exact_mean := D.exact_mean
    exact_sd := D.exact_sd }

/-- Modelled from the spec (§4.4): the histogram's own approximate mean,
`Σ bin.value · bin.mass`, computed purely from the bins. -/
noncomputable def ProbabilityMassHistogram.histogram_mean
    (h : ProbabilityMassHistogram) : ℝ :=
  (h.bins.map fun b => b.1 * b.2).sum

/-- Modelled from the spec (§4.4): the histogram's own approximate standard
deviation, `sqrt (Σ bin.mass · (bin.value − histogram_mean)²)`. -/
noncomputable def ProbabilityMassHistogram.histogram_sd
    (h : ProbabilityMassHistogram) : ℝ :=
  Real.sqrt ((h.bins.map fun b => b.2 * (b.1 - h.histogram_mean) ^ 2).sum)

/-- Modelled from the spec (§4.4): fraction of total expected value
contributed by bins at or below value `x`, accumulating
`bin.value · bin.mass` and dividing by the histogram mean. -/
noncomputable def ProbabilityMassHistogram.contribution_to_ev
    (h : ProbabilityMassHistogram) (x : ℝ) : ℝ :=
  (h.bins.map fun b => if b.1 ≤ x then b.1 * b.2 else 0).sum / h.histogram_mean

/-- Walk the bins accumulating each bin's share of expected value; return
the stored value of the first bin at which the accumulated share reaches
the requested fraction. -/
noncomputable def invContribAux (total f : ℝ) : List (ℝ × ℝ) → ℝ → ℝ
  | [], _ => 0
  | b :: rest, acc =>
      if f ≤ acc + b.1 * b.2 / total then b.1
      else invContribAux total f rest (acc + b.1 * b.2 / total)

/-- Modelled from the spec (§4.4) and the behavior pinned down by
`test_pmh_inv_contribution_to_ev`: the stored bin value at which the
accumulated EV-share first reaches `fraction` ("the nth value stored in the
PMH represents a value between the nth and n+1th edges"). -/
noncomputable def ProbabilityMassHistogram.inv_contribution_to_ev
    (h : ProbabilityMassHistogram) (fraction : ℝ) : ℝ :=
  invContribAux h.histogram_mean fraction h.bins 0

/-- Insert a candidate bin into a list sorted ascending by value. -/
noncomputable def insertSorted (b : ℝ × ℝ) : List (ℝ × ℝ) → List (ℝ × ℝ)
  | [] => [b]
  | c :: rest => if b.1 ≤ c.1 then b :: c :: rest else c :: insertSorted b rest

/-- Modelled from the spec (§4.3): sort the candidate bins of the pairwise
expansion ascending by value. -/
noncomputable def sortBins : List (ℝ × ℝ) → List (ℝ × ℝ)
  | [] => []
  | b :: rest => insertSorted b (sortBins rest)

/-- Modelled from the spec (§4.3): merge a group of candidate bins into one
output bin whose mass is the group's total mass and whose representative
value is the mass-weighted average of the merged candidates' values. -/
noncomputable def mergeBin (l : List (ℝ × ℝ)) : ℝ × ℝ :=
  ((l.map fun b => b.1 * b.2).sum / massSum l, massSum l)

/-- Split off a leading chunk of candidates whose accumulated mass reaches
the per-output-bin threshold; returns the chunk and the remainder. -/
noncomputable def takeChunk (thr : ℝ) : List (ℝ × ℝ) → ℝ → List (ℝ × ℝ) × List (ℝ × ℝ)
  | [], _ => ([], [])
  | b :: rest, acc =>
      if thr ≤ acc + b.2 then ([b], rest)
      else
        let s := takeChunk thr rest (acc + b.2)
        (b :: s.1, s.2)

/-- Modelled from the spec (§4.3): walk the sorted candidates accumulating
mass until each output bin's accumulated mass reaches the threshold
`1/target`; the output bin count is fixed and the last bin absorbs any
residual mass rather than overflowing into a new bin. -/
noncomputable def rebinLoop (thr : ℝ) : ℕ → List (ℝ × ℝ) → List (ℝ × ℝ)
  | 0, _ => []
  | 1, cands => [mergeBin cands]
  | k + 2, cands =>
      let s := takeChunk thr cands 0
      mergeBin s.1 :: rebinLoop thr (k + 1) s.2

/-- Modelled from the spec (§4.3): the product operator.  Exact moments are
propagated analytically from the operands' exact moments (mean is the
product of the means; variance is `E[X]²·Var Y + E[Y]²·Var X + Var X·Var Y`
with `Var = exact_sd²`), while the approximate bin layout is the pairwise
candidate expansion `(a.value·b.value, a.mass·b.mass)`, sorted by value and
rebinned to `max` of the operand bin counts by mass-preserving merge. -/
noncomputable def ProbabilityMassHistogram.mul
    (A B : ProbabilityMassHistogram) : ProbabilityMassHistogram :=
  let cands := A.bins.flatMap fun a => B.bins.map fun b => (a.1 * b.1, a.2 * b.2)
  let target := max A.num_bins B.num_bins
  { bins := rebinLoop ((1 : ℝ) / target) target (sortBins cands)
    exact_mean := A.exact_mean * B.exact_mean
    exact_sd := Real.sqrt (A.exact_mean ^ 2 * B.exact_sd ^ 2
      + B.exact_mean ^ 2 * A.exact_sd ^ 2 + A.exact_sd ^ 2 * B.exact_sd ^ 2) }

/-- A product computation that also returns its two operands as they can be
observed after the computation; used to state that the product operator
returns a new histogram and leaves both operands unchanged. -/
noncomputable def mulSession (A B : ProbabilityMassHistogram) :
    ProbabilityMassHistogram × ProbabilityMassHistogram × ProbabilityMassHistogram :=
  (A.mul B, A, B)

/-- Repeated multiplication reusing a fixed factor, as in
`test_mean_error_propagation` (`hist = hist * hist_base` in a loop); returns
the accumulated product together with the reused base factor as it can be
observed after the loop. -/
noncomputable def iteratedProduct (base : ProbabilityMassHistogram) :
    ℕ → ProbabilityMassHistogram → ProbabilityMassHistogram × ProbabilityMassHistogram
  | 0, acc => (acc, base)
  | k + 1, acc => iteratedProduct base k (acc.mul base)

/-- Well-formedness of a distribution capability under the `ev` bin-sizing
policy, as described in spec §3: the exact mean is positive (EV-based
binning presupposes a positive-support distribution), `inv_ev_contribution`
is strictly increasing on `[0,1]` and is a right inverse of
`ev_contribution` there, the CDF is 0 at the bottom of the support and 1 at
the top, and on any sub-interval cut at EV-contribution levels the
interval's expected value `exact_mean·(q−p)` lies strictly between the
interval's mass times its left and right endpoints (the integral
`∫ t·density(t) dt` over an interval of positive mass lies strictly between
the endpoint values times the mass). -/
structure Valid (D : DistCapability) : Prop where
  mean_pos : 0 < D.exact_mean
  inv_ev_mono : ∀ p q : ℝ, 0 ≤ p → p < q → q ≤ 1 →
    D.inv_ev_contribution p < D.inv_ev_contribution q
  ev_inv_ev : ∀ p : ℝ, 0 ≤ p → p ≤ 1 →
    D.ev_contribution (D.inv_ev_contribution p) = p
  cdf_bot : D.cdf (D.inv_ev_contribution 0) = 0
  cdf_top : D.cdf (D.inv_ev_contribution 1) = 1
  bin_mean_between : ∀ p q : ℝ, 0 ≤ p → p < q → q ≤ 1 →
    D.inv_ev_contribution p
        * (D.cdf (D.inv_ev_contribution q) - D.cdf (D.inv_ev_contribution p))
      < D.exact_mean * (q - p)
    ∧ D.exact_mean * (q - p)
      < D.inv_ev_contribution q
        * (D.cdf (D.inv_ev_contribution q) - D.cdf (D.inv_ev_contribution p))

/-- A concrete valid distribution capability used to instantiate the
universally quantified theorems: the distribution on `[1/2, 1]` with
density `2/(3t³)`.  Its CDF is `(4 − x⁻²)/3`, its mean is `2/3`, its
EV-contribution function is `2 − x⁻¹` with inverse `(2 − p)⁻¹`, and all of
these are rational functions. -/
noncomputable def D0 : DistCapability :=
  { cdf := fun x => (4 - x⁻¹ ^ 2) / 3
    quantile := fun p => (Real.sqrt (4 - 3 * p))⁻¹
    exact_mean := 2 / 3
    exact_sd := Real.sqrt (2 / 3 * Real.log 2 - 4 / 9)
    ev_contribution := fun x => 2 - x⁻¹
    inv_ev_contribution := fun p => (2 - p)⁻¹ }

/-- The distribution objects of `squigglepy/distributions.py` that
`bayes.update` dispatches on (embedded from the imports and `isinstance`
checks in `squigglepy/bayes.py`). -/
inductive Distribution
  | NormalDistribution (mean sd : ℝ)
  | BetaDistribution (a b : ℝ)
  | MixtureDistribution (dists : List Distribution) (weights : List ℝ)

/-- The `norm` constructor used by `bayes.update`. -/
def norm (mean sd : ℝ) : Distribution :=
  .NormalDistribution mean sd

/-- The `beta` constructor used by `bayes.update`. -/
def beta (a b : ℝ) : Distribution :=
  .BetaDistribution a b

/-- The Python class name of a distribution object, used to model
`type(prior) != type(evidence)` and `prior.__class__.__name__`. -/
def typeName : Distribution → String
  | .NormalDistribution _ _ => "NormalDistribution"
  | .BetaDistribution _ _ => "BetaDistribution"
  | .MixtureDistribution _ _ => "MixtureDistribution"

/-- Embedded from `squigglepy/bayes.py`, `update` (lines 322–381): the
normal–normal branch returns the precision-weighted normal posterior using
`evidence_weight`; the beta–beta branch returns
`beta(prior.a + evidence.a, prior.b + evidence.b)`; mismatched types raise
`can only update distributions of the same type.` and matching unsupported
types raise a `not supported` error.  Raised `ValueError`s are modelled as
`Except.error`. -/
noncomputable def update (prior evidence : Distribution) (evidence_weight : ℝ) :
    Except String Distribution :=
  match prior, evidence with
  | .NormalDistribution prior_mean prior_sd, .NormalDistribution evidence_mean evidence_sd =>
      .ok (norm
        ((evidence_sd ^ 2 * prior_mean + evidence_weight * (prior_sd ^ 2 * evidence_mean))
          / (evidence_weight * prior_sd ^ 2 + evidence_sd ^ 2))
        (Real.sqrt ((evidence_sd ^ 2 * prior_sd ^ 2)
          / (evidence_weight * prior_sd ^ 2 + evidence_sd ^ 2))))
  | .BetaDistribution prior_a prior_b, .BetaDistribution evidence_a evidence_b =>
      .ok (beta (prior_a + evidence_a) (prior_b + evidence_b))
  | p, e =>
      if typeName p = typeName e then
        .error ("type `" ++ typeName p ++ "` not supported.")
      else
        .error "can only update distributions of the same type."

/-- Result of a `bayesnet` query: either the raw list of events (when no
reduction applies) or a reduced value. -/
inductive BayesnetResult (E : Type)
  | rawEvents (events : List E)
  | reduced (value : E)

/-- Embedded from `squigglepy/bayes.py`, `bayesnet` (lines 286–319): the
result-assembly phase that runs after `events` has been populated either by
generating `n` samples of `event_fn` or by loading a cache.  If
`conditional_on` is given, the events are filtered by it; if fewer than one
event remains, `ValueError("insufficient samples for condition")` is raised
(modelled as `Except.error`).  Otherwise the events are optionally mapped
through `find` and reduced by `reduce_fn` (defaulting to the mean) unless
`raw` is set. -/
def bayesnetQuery {E : Type} (events : List E) (conditional_on : Option (E → Bool))
    (find : Option (E → E)) (reduce_fn : Option (List E → E))
    (mean_fn : List E → E) (raw : Bool) : Except String (BayesnetResult E) :=
  let filtered := match conditional_on with
    | some p => events.filter p
    | none => events
  if filtered.length < 1 then
    .error "insufficient samples for condition"
  else
    match find with
    | none =>
        match reduce_fn with
        | none => .ok (.rawEvents filtered)
        | some r => .ok (.reduced (r filtered))
    | some f =>
        let found := filtered.map f
        if raw then .ok (.rawEvents found)
        else .ok (.reduced ((reduce_fn.getD mean_fn) found))

/-- Closed-form mean of a lognormal distribution with log-space parameters
`μ` and `σ`: `exp (μ + σ²/2)` (the oracle family of `test_exact_moments`). -/
noncomputable def lognorm_mean (μ σ : ℝ) : ℝ :=
  Real.exp (μ + σ ^ 2 / 2)

/-- Closed-form standard deviation of a lognormal distribution with
log-space parameters `μ` and `σ`: `exp (μ + σ²/2) · sqrt (exp σ² − 1)`. -/
noncomputable def lognorm_sd (μ σ : ℝ) : ℝ :=
  lognorm_mean μ σ * Real.sqrt (Real.exp (σ ^ 2) - 1)

/-- A capability carrying exactly the lognormal(0, 1) closed-form moments;
the quantile-side fields are irrelevant to exact-moment propagation and are
left at 0.  Used only to instantiate universally quantified theorems. -/
noncomputable def lognormCap01 : DistCapability :=
  { cdf := fun _ => 0
    quantile := fun _ => 0
    exact_mean := lognorm_mean 0 1
    exact_sd := lognorm_sd 0 1
    ev_contribution := fun _ => 0
    inv_ev_contribution := fun _ => 0 }

lemma list_range_map_sum (f : ℕ → ℝ) (n : ℕ) :
    ((List.range n).map f).sum = ∑ i in Finset.range n, f i := by
  induction n with
  | zero => simp
  | succ n ih =>
      rw [List.range_succ, List.map_append, List.sum_append, Finset.sum_range_succ, ih]
      simp

lemma valid_D0 : Valid D0 := by
  constructor
  · norm_num [D0]
  · intro p q hp hpq hq
    simp only [D0]
    have h1 : (0 : ℝ) < 2 - q := by linarith
    have h2 : (0 : ℝ) < 2 - p := by linarith
    rw [inv_lt_inv₀ h2 h1]
    linarith
  · intro p hp hq
    have h2 : (2 : ℝ) - p ≠ 0 := by linarith
    simp only [D0, inv_inv]
    ring
  · norm_num [D0]
  · norm_num [D0]
  · intro p q hp hpq hq
    have h1 : (0 : ℝ) < 2 - q := by linarith
    have h2 : (0 : ℝ) < 2 - p := by linarith
    have e1 : ((2 - p)⁻¹)⁻¹ = 2 - p := inv_inv _
    have e2 : ((2 - q)⁻¹)⁻¹ = 2 - q := inv_inv _
    simp only [D0, e1, e2]
    constructor
    · rw [div_sub_div_same, inv_mul_lt_iff₀ h2]
      nlinarith
    · rw [div_sub_div_same, lt_inv_mul_iff₀ h1]
      nlinarith

lemma binAt_ev_spec (D : DistCapability) (hD : Valid D) (n i : ℕ) (hi : i < n) :
    0 < (binAt D .ev n i).2
    ∧ (binAt D .ev n i).1 * (binAt D .ev n i).2 = D.exact_mean / n
    ∧ D.inv_ev_contribution ((i : ℝ) / n) < (binAt D .ev n i).1
    ∧ (binAt D .ev n i).1 < D.inv_ev_contribution (((i : ℝ) + 1) / n) := by
  have hn0 : 0 < n := lt_of_le_of_lt (Nat.zero_le i) hi
  have hn : (0 : ℝ) < n := by exact_mod_cast hn0
  have hp0 : (0 : ℝ) ≤ (i : ℝ) / n := by positivity
  have hpq : (i : ℝ) / n < ((i : ℝ) + 1) / n := by
    rw [div_lt_div_iff₀ hn hn]
    nlinarith
  have hq1 : ((i : ℝ) + 1) / n ≤ 1 := by
    rw [div_le_one hn]
    exact_mod_cast hi
  have hbins : binAt D .ev n i =
      (D.exact_mean * (D.ev_contribution (D.inv_ev_contribution (((i : ℝ) + 1) / n))
          - D.ev_contribution (D.inv_ev_contribution ((i : ℝ) / n)))
        / (D.cdf (D.inv_ev_contribution (((i : ℝ) + 1) / n))
          - D.cdf (D.inv_ev_contribution ((i : ℝ) / n))),
       D.cdf (D.inv_ev_contribution (((i : ℝ) + 1) / n))
          - D.cdf (D.inv_ev_contribution ((i : ℝ) / n))) := by
    simp only [binAt, binEdge]
    push_cast
    rfl
  set a := D.inv_ev_contribution ((i : ℝ) / n) with ha
  set b := D.inv_ev_contribution (((i : ℝ) + 1) / n) with hb
  have hab : a < b := hD.inv_ev_mono _ _ hp0 hpq hq1
  have hevd : D.ev_contribution b - D.ev_contribution a = 1 / n := by
    rw [hD.ev_inv_ev _ hp0 (le_trans (le_of_lt hpq) hq1),
      hD.ev_inv_ev _ (le_trans hp0 (le_of_lt hpq)) hq1, div_sub_div_same]
    ring_nf
  have hbetween := hD.bin_mean_between _ _ hp0 hpq hq1
  have hqp : ((i : ℝ) + 1) / n - (i : ℝ) / n = 1 / n := by
    rw [div_sub_div_same]
    ring_nf
  rw [hqp] at hbetween
  have hmean : D.exact_mean * (1 / n) = D.exact_mean / n := by ring
  rw [hmean] at hbetween
  set Δ := D.cdf b - D.cdf a with hΔdef
  have hΔ : 0 < Δ := by nlinarith [hbetween.1, hbetween.2]
  have hv : (binAt D .ev n i).1 = D.exact_mean / n / Δ := by
    rw [hbins]
    simp only [hevd]
    rw [hmean]
  have hm : (binAt D .ev n i).2 = Δ := by rw [hbins]
  refine ⟨by rw [hm]; exact hΔ, ?_, ?_, ?_⟩
  · rw [hv, hm, div_mul_cancel₀ _ (ne_of_gt hΔ)]
  · rw [hv, lt_div_iff₀ hΔ]
    exact hbetween.1
  · rw [hv, div_lt_iff₀ hΔ]
    exact hbetween.2

lemma from_distribution_ev_histogram_mean (D : DistCapability) (hD : Valid D)
    (n : ℕ) (hn : 1 ≤ n) :
    (ProbabilityMassHistogram.from_distribution D n .ev).histogram_mean = D.exact_mean := by
  have hnR : ((n : ℝ)) ≠ 0 := by
    have : (0 : ℝ) < n := by exact_mod_cast hn
    exact ne_of_gt this
  unfold ProbabilityMassHistogram.histogram_mean ProbabilityMassHistogram.from_distribution
  rw [List.map_map, list_range_map_sum]
  simp only [Function.comp]
  rw [Finset.sum_congr rfl fun i hi =>
    (binAt_ev_spec D hD n i (Finset.mem_range.mp hi)).2.1]
  rw [Finset.sum_const, Finset.card_range, nsmul_eq_mul,
    mul_div_cancel₀ _ hnR]

lemma from_distribution_ev_massSum (D : DistCapability) (hD : Valid D)
    (n : ℕ) (hn : 1 ≤ n) :
    massSum (ProbabilityMassHistogram.from_distribution D n .ev).bins = 1 := by
  have hnR : ((n : ℝ)) ≠ 0 := by
    have : (0 : ℝ) < n := by exact_mod_cast hn
    exact ne_of_gt this
  unfold massSum ProbabilityMassHistogram.from_distribution
  rw [List.map_map, list_range_map_sum]
  have hterm : ∀ i ∈ Finset.range n, (Prod.snd ∘ binAt D .ev n) i =
      D.cdf (D.inv_ev_contribution (((i + 1 : ℕ) : ℝ) / n))
        - D.cdf (D.inv_ev_contribution (((i : ℕ) : ℝ) / n)) := by
    intro i _
    rfl
  rw [Finset.sum_congr rfl hterm,
    Finset.sum_range_sub (fun j : ℕ => D.cdf (D.inv_ev_contribution ((j : ℝ) / n)))]
  rw [div_self hnR, Nat.cast_zero, zero_div, hD.cdf_top, hD.cdf_bot]
  ring

lemma from_distribution_massSum_of_edges (D : DistCapability) (n : ℕ)
    (policy : BinSizing)
    (hbot : D.cdf (binEdge D policy n 0) = 0)
    (htop : D.cdf (binEdge D policy n n) = 1) :
    massSum (ProbabilityMassHistogram.from_distribution D n policy).bins = 1 := by
  unfold massSum ProbabilityMassHistogram.from_distribution
  rw [List.map_map, list_range_map_sum]
  have hterm : ∀ i ∈ Finset.range n, (Prod.snd ∘ binAt D policy n) i =
      (fun j : ℕ => D.cdf (binEdge D policy n j)) (i + 1)
        - (fun j : ℕ => D.cdf (binEdge D policy n j)) i := by
    intro i _
    rfl
  rw [Finset.sum_congr rfl hterm,
    Finset.sum_range_sub (fun j : ℕ => D.cdf (binEdge D policy n j))]
  rw [htop, hbot]
  ring

lemma d0_cdf_quantile : ∀ p : ℝ, 0 ≤ p → p ≤ 1 → D0.cdf (D0.quantile p) = p := by
  intro p hp hq
  simp only [D0]
  rw [inv_inv, Real.sq_sqrt (by linarith)]
  ring

lemma massSum_cons (b : ℝ × ℝ) (l : List (ℝ × ℝ)) :
    massSum (b :: l) = b.2 + massSum l := by
  simp [massSum]

lemma massSum_append (l₁ l₂ : List (ℝ × ℝ)) :
    massSum (l₁ ++ l₂) = massSum l₁ + massSum l₂ := by
  simp [massSum]

lemma massSum_insertSorted (b : ℝ × ℝ) (l : List (ℝ × ℝ)) :
    massSum (insertSorted b l) = b.2 + massSum l := by
  induction l with
  | nil => simp [insertSorted, massSum]
  | cons c rest ih =>
      simp only [insertSorted]
      split
      · rw [massSum_cons]
      · rw [massSum_cons, ih, massSum_cons]
        ring

lemma massSum_sortBins (l : List (ℝ × ℝ)) : massSum (sortBins l) = massSum l := by
  induction l with
  | nil => rfl
  | cons b rest ih =>
      simp only [sortBins]
      rw [massSum_insertSorted, ih, massSum_cons]

lemma massSum_map_scale (a : ℝ × ℝ) (B : List (ℝ × ℝ)) :
    massSum (B.map fun b => (a.1 * b.1, a.2 * b.2)) = a.2 * massSum B := by
  induction B with
  | nil => simp [massSum]
  | cons b rest ih =>
      rw [List.map_cons, massSum_cons, ih, massSum_cons]
      ring

lemma massSum_pairs (A B : List (ℝ × ℝ)) :
    massSum (A.flatMap fun a => B.map fun b => (a.1 * b.1, a.2 * b.2))
      = massSum A * massSum B := by
  induction A with
  | nil => simp [massSum]
  | cons a rest ih =>
      rw [List.flatMap_cons, massSum_append, massSum_map_scale, ih, massSum_cons]
      ring

lemma takeChunk_append (thr : ℝ) (l : List (ℝ × ℝ)) :
    ∀ acc : ℝ, (takeChunk thr l acc).1 ++ (takeChunk thr l acc).2 = l := by
  induction l with
  | nil => intro acc; rfl
  | cons b rest ih =>
      intro acc
      simp only [takeChunk]
      split
      · rfl
      · simp only [List.cons_append, ih]

lemma massSum_rebinLoop (thr : ℝ) :
    ∀ (k : ℕ) (l : List (ℝ × ℝ)), 1 ≤ k →
    massSum (rebinLoop thr k l) = massSum l := by
  intro k
  induction k with
  | zero => intro l h; omega
  | succ k ih =>
      intro l _
      cases k with
      | zero =>
          show massSum [mergeBin l] = massSum l
          rw [massSum_cons]
          show (mergeBin l).2 + massSum [] = massSum l
          simp [mergeBin, massSum]
      | succ k' =>
          show massSum (mergeBin (takeChunk thr l 0).1
            :: rebinLoop thr (k' + 1) (takeChunk thr l 0).2) = massSum l
          rw [massSum_cons, ih _ (by omega)]
          show massSum (takeChunk thr l 0).1 + massSum (takeChunk thr l 0).2 = massSum l
          rw [← massSum_append, takeChunk_append]

lemma sum_ite_lt_mul (c : ℝ) (j n : ℕ) :
    ∑ i in Finset.range n, (if i < j then c else 0) = ((min j n : ℕ) : ℝ) * c := by
  induction n with
  | zero => simp
  | succ n ih =>
      rw [Finset.sum_range_succ, ih]
      by_cases h : n < j
      · rw [if_pos h]
        have h1 : min j (n + 1) = n + 1 := by omega
        have h2 : min j n = n := by omega
        rw [h1, h2]
        push_cast
        ring
      · rw [if_neg h]
        have h1 : min j (n + 1) = min j n := by omega
        rw [h1]
        ring

lemma invContribAux_walk (D : DistCapability) (hD : Valid D) (n k : ℕ)
    (hk1 : 1 ≤ k) (hkn : k ≤ n) :
    ∀ (m a : ℕ), a < k → k ≤ a + m → a + m ≤ n →
    invContribAux D.exact_mean ((k : ℝ) / n)
        ((List.range' a m).map (binAt D .ev n)) ((a : ℝ) / n)
      = (binAt D .ev n (k - 1)).1 := by
  have hnR : (0 : ℝ) < n := by
    have : 0 < n := lt_of_lt_of_le (lt_of_lt_of_le Nat.zero_lt_one hk1) hkn
    exact_mod_cast this
  intro m
  induction m with
  | zero => intro a h1 h2 h3; omega
  | succ m ih =>
      intro a h1 h2 h3
      rw [List.range'_succ, List.map_cons]
      simp only [invContribAux]
      have han : a < n := by omega
      have hspec := binAt_ev_spec D hD n a han
      have hμ : D.exact_mean ≠ 0 := ne_of_gt hD.mean_pos
      have hstep : (a : ℝ) / n + (binAt D .ev n a).1 * (binAt D .ev n a).2 / D.exact_mean
          = ((a : ℝ) + 1) / n := by
        rw [hspec.2.1]
        field_simp
        ring
      rw [hstep]
      by_cases hcase : k = a + 1
      · have hcond : (k : ℝ) / n ≤ ((a : ℝ) + 1) / n := by
          subst hcase
          push_cast
          exact le_refl _
        rw [if_pos hcond]
        subst hcase
        simp
      · have hlt : a + 1 < k := by omega
        have hcond : ¬ ((k : ℝ) / n ≤ ((a : ℝ) + 1) / n) := by
          rw [not_le, div_lt_div_iff₀ hnR hnR]
          have : ((a : ℝ) + 1) < k := by exact_mod_cast hlt
          nlinarith
        rw [if_neg hcond]
        have hcast : ((a : ℝ) + 1) = ((a + 1 : ℕ) : ℝ) := by push_cast; ring
        rw [hcast]
        exact ih (a + 1) (by omega) (by omega) (by omega)

/-- Claim C3: for every valid distribution capability `D`, bin count
`n ≥ 1`, and fraction `f` strictly between 0 and 1, a PMH built from `D`
satisfies `contribution_to_ev (D.inv_ev_contribution f) ≈ f`, with the
approximation improving as the bin count grows: the error is at most
`1/n`. -/
theorem contribution_to_ev_roundTrip (D : DistCapability) (n : ℕ) (f : ℝ)
    (hD : Valid D) (hn : 1 ≤ n) (hf0 : 0 < f) (hf1 : f < 1) :
    |(ProbabilityMassHistogram.from_distribution D n .ev).contribution_to_ev
        (D.inv_ev_contribution f) - f| ≤ 1 / n := by
  have hnR : (0 : ℝ) < n := by exact_mod_cast lt_of_lt_of_le Nat.zero_lt_one hn
  have hμ : 0 < D.exact_mean := hD.mean_pos
  set x := D.inv_ev_contribution f with hx
  simp only [ProbabilityMassHistogram.contribution_to_ev]
  rw [from_distribution_ev_histogram_mean D hD n hn]
  rw [show (ProbabilityMassHistogram.from_distribution D n .ev).bins
      = (List.range n).map (binAt D .ev n) from rfl,
    List.map_map, list_range_map_sum]
  simp only [Function.comp]
  set j := ⌈f * n⌉₊ with hj
  have hfn0 : 0 < f * n := by positivity
  have hj1 : 1 ≤ j := Nat.one_le_ceil_iff.mpr hfn0
  have hjn : j ≤ n := Nat.ceil_le.mpr (by nlinarith)
  have hfj : f ≤ (j : ℝ) / n := by
    rw [le_div_iff₀ hnR]
    exact Nat.le_ceil _
  have hjf : ((j : ℝ) - 1) / n < f := by
    rw [div_lt_iff₀ hnR]
    have h := Nat.ceil_lt_add_one (le_of_lt hfn0)
    have h2 : (j : ℝ) < f * n + 1 := by exact_mod_cast h
    linarith
  have hterm_le : ∀ i ∈ Finset.range n,
      (if (binAt D .ev n i).1 ≤ x then (binAt D .ev n i).1 * (binAt D .ev n i).2 else 0)
        ≤ (if i < j then D.exact_mean / n else 0) := by
    intro i hi
    have hin : i < n := Finset.mem_range.mp hi
    by_cases hij : i < j
    · rw [if_pos hij]
      split
      · rw [(binAt_ev_spec D hD n i hin).2.1]
      · positivity
    · rw [if_neg hij]
      have hji : j ≤ i := le_of_not_lt hij
      have hfi : f ≤ (i : ℝ) / n := by
        refine le_trans hfj ?_
        gcongr
      have hxe : x ≤ D.inv_ev_contribution ((i : ℝ) / n) := by
        rcases eq_or_lt_of_le hfi with heq | hlt
        · rw [hx, heq]
        · exact le_of_lt (hD.inv_ev_mono f ((i : ℝ) / n) (le_of_lt hf0) hlt
            (by rw [div_le_one hnR]; exact_mod_cast le_of_lt hin))
      have hv : x < (binAt D .ev n i).1 :=
        lt_of_le_of_lt hxe (binAt_ev_spec D hD n i hin).2.2.1
      rw [if_neg (not_le.mpr hv)]
  have hterm_ge : ∀ i ∈ Finset.range n,
      (if i < j - 1 then D.exact_mean / n else 0)
        ≤ (if (binAt D .ev n i).1 ≤ x then (binAt D .ev n i).1 * (binAt D .ev n i).2 else 0) := by
    intro i hi
    have hin : i < n := Finset.mem_range.mp hi
    by_cases hij : i < j - 1
    · rw [if_pos hij]
      have hcast : (i : ℝ) + 1 ≤ (j : ℝ) - 1 := by
        have : i + 2 ≤ j := by omega
        have h2 : ((i : ℝ)) + 2 ≤ (j : ℝ) := by exact_mod_cast this
        linarith
      have hlt : ((i : ℝ) + 1) / n < f := by
        refine lt_of_le_of_lt ?_ hjf
        gcongr
      have hvx : (binAt D .ev n i).1 ≤ x := by
        refine le_of_lt (lt_of_lt_of_le (binAt_ev_spec D hD n i hin).2.2.2 ?_)
        rw [hx]
        exact le_of_lt (hD.inv_ev_mono _ f (by positivity) hlt (le_of_lt hf1))
      rw [if_pos hvx, (binAt_ev_spec D hD n i hin).2.1]
    · rw [if_neg hij]
      split
      · rw [(binAt_ev_spec D hD n i hin).2.1]
        positivity
      · exact le_refl 0
  set S := ∑ i in Finset.range n,
    (if (binAt D .ev n i).1 ≤ x then (binAt D .ev n i).1 * (binAt D .ev n i).2 else 0)
    with hS
  have hS_le : S ≤ (j : ℝ) * (D.exact_mean / n) := by
    calc S ≤ ∑ i in Finset.range n, (if i < j then D.exact_mean / n else 0) :=
          Finset.sum_le_sum hterm_le
    _ = ((min j n : ℕ) : ℝ) * (D.exact_mean / n) := sum_ite_lt_mul _ j n
    _ = (j : ℝ) * (D.exact_mean / n) := by rw [min_eq_left hjn]
  have hS_ge : ((j : ℝ) - 1) * (D.exact_mean / n) ≤ S := by
    have h := Finset.sum_le_sum hterm_ge
    rw [sum_ite_lt_mul (D.exact_mean / n) (j - 1) n,
      min_eq_left (by omega : j - 1 ≤ n), Nat.cast_sub hj1, Nat.cast_one] at h
    exact h
  have hA1 : S / D.exact_mean ≤ (j : ℝ) / n := by
    rw [div_le_iff₀ hμ]
    have hr : (j : ℝ) * (D.exact_mean / n) = (j : ℝ) / n * D.exact_mean := by ring
    linarith
  have hA2 : ((j : ℝ) - 1) / n ≤ S / D.exact_mean := by
    rw [le_div_iff₀ hμ]
    have hr : ((j : ℝ) - 1) * (D.exact_mean / n) = ((j : ℝ) - 1) / n * D.exact_mean := by ring
    linarith
  have hstepn : (j : ℝ) / n - ((j : ℝ) - 1) / n = 1 / n := by ring
  rw [abs_le]
  constructor
  · linarith
  · linarith

/-- Witness for C3: the round-trip bound instantiated at the concrete valid
capability `D0`, 2 bins, fraction 1/3. -/
theorem contribution_to_ev_roundTrip_witness :
    |(ProbabilityMassHistogram.from_distribution D0 2 .ev).contribution_to_ev
        (D0.inv_ev_contribution (1 / 3)) - 1 / 3| ≤ 1 / ((2 : ℕ) : ℝ) :=
  contribution_to_ev_roundTrip D0 2 (1 / 3) valid_D0 (by norm_num) (by norm_num)
    (by norm_num)

/-- Claim C4: for every valid distribution capability `D` and every valid
bin index `k` (`1 ≤ k ≤ n`), the histogram-side
`inv_contribution_to_ev (k/num_bins)` lies strictly between the
distribution-side values `D.inv_ev_contribution ((k−1)/num_bins)` and
`D.inv_ev_contribution (k/num_bins)`. -/
theorem inv_contribution_to_ev_bracket (D : DistCapability) (n k : ℕ)
    (hD : Valid D) (hk1 : 1 ≤ k) (hkn : k ≤ n) :
    D.inv_ev_contribution (((k : ℝ) - 1) / n)
        < (ProbabilityMassHistogram.from_distribution D n .ev).inv_contribution_to_ev
          ((k : ℝ) / n)
    ∧ (ProbabilityMassHistogram.from_distribution D n .ev).inv_contribution_to_ev
          ((k : ℝ) / n)
        < D.inv_ev_contribution ((k : ℝ) / n) := by
  have hn : 1 ≤ n := le_trans hk1 hkn
  have hval : (ProbabilityMassHistogram.from_distribution D n .ev).inv_contribution_to_ev
      ((k : ℝ) / n) = (binAt D .ev n (k - 1)).1 := by
    simp only [ProbabilityMassHistogram.inv_contribution_to_ev]
    rw [from_distribution_ev_histogram_mean D hD n hn]
    rw [show (ProbabilityMassHistogram.from_distribution D n .ev).bins
        = (List.range n).map (binAt D .ev n) from rfl]
    rw [List.range_eq_range']
    have hwalk := invContribAux_walk D hD n k hk1 hkn n 0 hk1 (by omega) (by omega)
    simp only [Nat.cast_zero, zero_div] at hwalk
    exact hwalk
  have hkn' : k - 1 < n := by omega
  constructor
  · rw [hval]
    have h := (binAt_ev_spec D hD n (k - 1) hkn').2.2.1
    rw [Nat.cast_sub hk1, Nat.cast_one] at h
    exact h
  · rw [hval]
    have h := (binAt_ev_spec D hD n (k - 1) hkn').2.2.2
    rw [Nat.cast_sub hk1, Nat.cast_one] at h
    have hc : (k : ℝ) - 1 + 1 = (k : ℝ) := by ring
    rw [hc] at h
    exact h

/-- Witness for C4: the bracketing instantiated at the concrete valid
capability `D0`, 2 bins, bin index 1. -/
theorem inv_contribution_to_ev_bracket_witness :
    D0.inv_ev_contribution ((((1 : ℕ) : ℝ) - 1) / ((2 : ℕ) : ℝ))
        < (ProbabilityMassHistogram.from_distribution D0 2 .ev).inv_contribution_to_ev
          (((1 : ℕ) : ℝ) / ((2 : ℕ) : ℝ))
    ∧ (ProbabilityMassHistogram.from_distribution D0 2 .ev).inv_contribution_to_ev
          (((1 : ℕ) : ℝ) / ((2 : ℕ) : ℝ))
        < D0.inv_ev_contribution (((1 : ℕ) : ℝ) / ((2 : ℕ) : ℝ)) :=
  inv_contribution_to_ev_bracket D0 2 1 valid_D0 (by norm_num) (by norm_num)

/-- Claim C5: for every valid distribution capability `D` (with a quantile
function that is a right inverse of the CDF on `[0,1]`) and every bin count
`n ≥ 1`, the bin masses of `from_distribution D n policy` sum to exactly 1
under **every** bin-sizing policy (`mass` as well as the default `ev`), and
the mass-normalization invariant is preserved by the product operator:
whenever both operands' masses sum to 1, so do the product's.  Thus every
PMH the system constructs — leaf constructions under either policy and
product results — carries total mass 1. -/
theorem mass_normalization (D : DistCapability) (n : ℕ) (hD : Valid D)
    (hq : ∀ p : ℝ, 0 ≤ p → p ≤ 1 → D.cdf (D.quantile p) = p) (hn : 1 ≤ n) :
    (∀ policy : BinSizing,
      massSum (ProbabilityMassHistogram.from_distribution D n policy).bins = 1)
    ∧ ∀ A B : ProbabilityMassHistogram,
      massSum A.bins = 1 → massSum B.bins = 1 → massSum (A.mul B).bins = 1 := by
  have hnR : ((n : ℝ)) ≠ 0 := by
    have : (0 : ℝ) < n := by exact_mod_cast hn
    exact ne_of_gt this
  constructor
  · intro policy
    cases policy with
    | mass =>
        apply from_distribution_massSum_of_edges D n .mass
        · show D.cdf (D.quantile (((0 : ℕ) : ℝ) / n)) = 0
          rw [Nat.cast_zero, zero_div]
          exact hq 0 le_rfl zero_le_one
        · show D.cdf (D.quantile (((n : ℕ) : ℝ) / n)) = 1
          rw [div_self hnR]
          exact hq 1 zero_le_one le_rfl
    | ev =>
        apply from_distribution_massSum_of_edges D n .ev
        · show D.cdf (D.inv_ev_contribution (((0 : ℕ) : ℝ) / n)) = 0
          rw [Nat.cast_zero, zero_div]
          exact hD.cdf_bot
        · show D.cdf (D.inv_ev_contribution (((n : ℕ) : ℝ) / n)) = 1
          rw [div_self hnR]
          exact hD.cdf_top
  intro A B hA hB
  have hAne : A.bins ≠ [] := by
    intro h
    rw [h] at hA
    simp [massSum] at hA
  have hAlen : 1 ≤ A.num_bins := by
    unfold ProbabilityMassHistogram.num_bins
    exact List.length_pos.mpr hAne
  have htarget : 1 ≤ max A.num_bins B.num_bins := le_trans hAlen (le_max_left _ _)
  simp only [ProbabilityMassHistogram.mul]
  rw [massSum_rebinLoop _ _ _ htarget, massSum_sortBins, massSum_pairs, hA, hB]
  ring

/-- Witness for C5: mass normalization holds for the construction from `D0`
with 2 bins under both bin-sizing policies, and for the product of the
`ev`-policy histogram with itself. -/
theorem mass_normalization_witness :
    massSum (ProbabilityMassHistogram.from_distribution D0 2 .mass).bins = 1
    ∧ massSum (ProbabilityMassHistogram.from_distribution D0 2 .ev).bins = 1
    ∧ massSum ((ProbabilityMassHistogram.from_distribution D0 2 .ev).mul
        (ProbabilityMassHistogram.from_distribution D0 2 .ev)).bins = 1 :=
  ⟨(mass_normalization D0 2 valid_D0 d0_cdf_quantile (by norm_num)).1 .mass,
    (mass_normalization D0 2 valid_D0 d0_cdf_quantile (by norm_num)).1 .ev,
    (mass_normalization D0 2 valid_D0 d0_cdf_quantile (by norm_num)).2 _ _
      ((mass_normalization D0 2 valid_D0 d0_cdf_quantile (by norm_num)).1 .ev)
      ((mass_normalization D0 2 valid_D0 d0_cdf_quantile (by norm_num)).1 .ev)⟩

/-- Claim C1: for every pair of PMHs `A`, `B` (representing independent
random variables), the product `A × B` has `exact_mean` equal to
`A.exact_mean · B.exact_mean` and `exact_sd` equal to
`sqrt (A.exact_mean²·B.var + B.exact_mean²·A.var + A.var·B.var)` with
`var = exact_sd²`, regardless of distributional family; moreover, on the
lognormal oracle family the propagated moments coincide exactly with the
closed-form moments of the lognormal product
(`lognormal(μ₁+μ₂, sqrt (σ₁²+σ₂²))`). -/
theorem product_exact_moments :
    (∀ A B : ProbabilityMassHistogram,
      (A.mul B).exact_mean = A.exact_mean * B.exact_mean
      ∧ (A.mul B).exact_sd = Real.sqrt (A.exact_mean ^ 2 * B.exact_sd ^ 2
          + B.exact_mean ^ 2 * A.exact_sd ^ 2 + A.exact_sd ^ 2 * B.exact_sd ^ 2))
    ∧ ∀ (D₁ D₂ : DistCapability) (μ₁ σ₁ μ₂ σ₂ : ℝ) (n m : ℕ) (p q : BinSizing),
      D₁.exact_mean = lognorm_mean μ₁ σ₁ → D₁.exact_sd = lognorm_sd μ₁ σ₁ →
      D₂.exact_mean = lognorm_mean μ₂ σ₂ → D₂.exact_sd = lognorm_sd μ₂ σ₂ →
      ((ProbabilityMassHistogram.from_distribution D₁ n p).mul
          (ProbabilityMassHistogram.from_distribution D₂ m q)).exact_mean
        = lognorm_mean (μ₁ + μ₂) (Real.sqrt (σ₁ ^ 2 + σ₂ ^ 2))
      ∧ ((ProbabilityMassHistogram.from_distribution D₁ n p).mul
          (ProbabilityMassHistogram.from_distribution D₂ m q)).exact_sd
        = lognorm_sd (μ₁ + μ₂) (Real.sqrt (σ₁ ^ 2 + σ₂ ^ 2)) := by
  constructor
  · intro A B
    exact ⟨rfl, rfl⟩
  · intro D₁ D₂ μ₁ σ₁ μ₂ σ₂ n m p q h1 h2 h3 h4
    have hs : Real.sqrt (σ₁ ^ 2 + σ₂ ^ 2) ^ 2 = σ₁ ^ 2 + σ₂ ^ 2 :=
      Real.sq_sqrt (by positivity)
    have hM : lognorm_mean (μ₁ + μ₂) (Real.sqrt (σ₁ ^ 2 + σ₂ ^ 2))
        = lognorm_mean μ₁ σ₁ * lognorm_mean μ₂ σ₂ := by
      simp only [lognorm_mean]
      rw [← Real.exp_add]
      congr 1
      rw [hs]
      ring
    have hexp : Real.exp (Real.sqrt (σ₁ ^ 2 + σ₂ ^ 2) ^ 2)
        = Real.exp (σ₁ ^ 2) * Real.exp (σ₂ ^ 2) := by
      rw [hs, Real.exp_add]
    constructor
    · show D₁.exact_mean * D₂.exact_mean = _
      rw [h1, h3, hM]
    · show Real.sqrt (D₁.exact_mean ^ 2 * D₂.exact_sd ^ 2
          + D₂.exact_mean ^ 2 * D₁.exact_sd ^ 2 + D₁.exact_sd ^ 2 * D₂.exact_sd ^ 2)
        = lognorm_sd (μ₁ + μ₂) (Real.sqrt (σ₁ ^ 2 + σ₂ ^ 2))
      rw [h1, h2, h3, h4]
      have hE₁ : 1 ≤ Real.exp (σ₁ ^ 2) := by
        rw [show (1 : ℝ) = Real.exp 0 from (Real.exp_zero).symm]
        exact Real.exp_le_exp.mpr (sq_nonneg _)
      have hE₂ : 1 ≤ Real.exp (σ₂ ^ 2) := by
        rw [show (1 : ℝ) = Real.exp 0 from (Real.exp_zero).symm]
        exact Real.exp_le_exp.mpr (sq_nonneg _)
      have hsd₁ : lognorm_sd μ₁ σ₁ ^ 2
          = lognorm_mean μ₁ σ₁ ^ 2 * (Real.exp (σ₁ ^ 2) - 1) := by
        simp only [lognorm_sd]
        rw [mul_pow, Real.sq_sqrt (by linarith)]
      have hsd₂ : lognorm_sd μ₂ σ₂ ^ 2
          = lognorm_mean μ₂ σ₂ ^ 2 * (Real.exp (σ₂ ^ 2) - 1) := by
        simp only [lognorm_sd]
        rw [mul_pow, Real.sq_sqrt (by linarith)]
      have hR : lognorm_sd (μ₁ + μ₂) (Real.sqrt (σ₁ ^ 2 + σ₂ ^ 2))
          = Real.sqrt (lognorm_mean (μ₁ + μ₂) (Real.sqrt (σ₁ ^ 2 + σ₂ ^ 2)) ^ 2
            * (Real.exp (Real.sqrt (σ₁ ^ 2 + σ₂ ^ 2) ^ 2) - 1)) := by
        have hMpos : (0 : ℝ) ≤ lognorm_mean (μ₁ + μ₂) (Real.sqrt (σ₁ ^ 2 + σ₂ ^ 2)) :=
          le_of_lt (Real.exp_pos _)
        rw [Real.sqrt_mul (sq_nonneg _), Real.sqrt_sq hMpos]
        rfl
      rw [hR]
      congr 1
      rw [hsd₁, hsd₂, hM, hexp]
      ring

/-- Witness for C1: the lognormal-oracle conjunct instantiated at a
capability carrying the lognormal(0,1) closed-form moments. -/
theorem product_exact_moments_witness :
    ((ProbabilityMassHistogram.from_distribution lognormCap01 4 .ev).mul
        (ProbabilityMassHistogram.from_distribution lognormCap01 4 .ev)).exact_mean
      = lognorm_mean (0 + 0) (Real.sqrt ((1 : ℝ) ^ 2 + (1 : ℝ) ^ 2))
    ∧ ((ProbabilityMassHistogram.from_distribution lognormCap01 4 .ev).mul
        (ProbabilityMassHistogram.from_distribution lognormCap01 4 .ev)).exact_sd
      = lognorm_sd (0 + 0) (Real.sqrt ((1 : ℝ) ^ 2 + (1 : ℝ) ^ 2)) :=
  product_exact_moments.2 lognormCap01 lognormCap01 0 1 0 1 4 4 .ev .ev rfl rfl rfl rfl

/-- Claim C2: for every distribution capability `D`, the PMH returned by
`from_distribution D n policy` has `exact_mean` exactly equal to `D`'s
closed-form mean and `exact_sd` exactly equal to `D`'s closed-form
standard deviation — the values are copied, not derived from the bins. -/
theorem from_distribution_copies_moments :
    ∀ (D : DistCapability) (n : ℕ) (policy : BinSizing),
      (ProbabilityMassHistogram.from_distribution D n policy).exact_mean = D.exact_mean
      ∧ (ProbabilityMassHistogram.from_distribution D n policy).exact_sd = D.exact_sd :=
  fun _ _ _ => ⟨rfl, rfl⟩

/-- Claim C7: `from_distribution`, the product operator, and the summary
statistics are deterministic pure functions of their inputs: calls with
identical (equal) arguments yield identical results.  In this functional
model, purity and absence of hidden state hold by construction. -/
theorem operations_deterministic :
    (∀ (D D' : DistCapability) (n n' : ℕ) (p p' : BinSizing),
      D = D' → n = n' → p = p' →
      ProbabilityMassHistogram.from_distribution D n p
        = ProbabilityMassHistogram.from_distribution D' n' p')
    ∧ (∀ A A' B B' : ProbabilityMassHistogram,
        A = A' → B = B' → A.mul B = A'.mul B')
    ∧ (∀ h h' : ProbabilityMassHistogram, h = h' →
        h.histogram_mean = h'.histogram_mean ∧ h.histogram_sd = h'.histogram_sd) := by
  refine ⟨?_, ?_, ?_⟩
  · intro D D' n n' p p' h1 h2 h3
    subst h1
    subst h2
    subst h3
    rfl
  · intro A A' B B' h1 h2
    subst h1
    subst h2
    rfl
  · intro h h' h1
    subst h1
    exact ⟨rfl, rfl⟩

/-- Witness for C7: two identical construction calls on `D0` yield the same
histogram. -/
theorem operations_deterministic_witness :
    ProbabilityMassHistogram.from_distribution D0 3 .ev
      = ProbabilityMassHistogram.from_distribution D0 3 .ev :=
  operations_deterministic.1 D0 D0 3 3 .ev .ev rfl rfl rfl

/-- Claim C8: the product operator never mutates its operands — after
computing `A × B` the operands observed afterwards are exactly `A` and `B`
and the result is the (new) product histogram; in particular a histogram
reused as a fixed factor across repeated multiplications keeps its original
contents.  In this value-semantics model, non-mutation holds by
construction. -/
theorem mul_preserves_operands :
    ∀ A B : ProbabilityMassHistogram,
      (mulSession A B).2.1 = A ∧ (mulSession A B).2.2 = B
      ∧ (mulSession A B).1 = A.mul B
      ∧ ∀ (k : ℕ) (acc : ProbabilityMassHistogram),
          (iteratedProduct B k acc).2 = B := by
  intro A B
  refine ⟨rfl, rfl, rfl, ?_⟩
  intro k
  induction k with
  | zero => intro acc; rfl
  | succ k ih => intro acc; exact ih _

/-- Claim C9 (from `squigglepy/bayes.py`, `update`, lines 371–376): for
beta-distribution prior `(a₁, b₁)` and evidence `(a₂, b₂)` and any
`evidence_weight`, `update` returns the beta distribution
`(a₁ + a₂, b₁ + b₂)`, and the `evidence_weight` argument has no effect on
the result in the beta–beta case. -/
theorem update_beta_beta :
    ∀ a₁ b₁ a₂ b₂ w : ℝ,
      update (beta a₁ b₁) (beta a₂ b₂) w = Except.ok (beta (a₁ + a₂) (b₁ + b₂))
      ∧ ∀ w' : ℝ, update (beta a₁ b₁) (beta a₂ b₂) w
          = update (beta a₁ b₁) (beta a₂ b₂) w' :=
  fun _ _ _ _ _ => ⟨rfl, fun _ => rfl⟩

/-- Claim C10 (from `squigglepy/bayes.py`, `bayesnet`, lines 286–293): if
the `conditional_on` predicate evaluates to false on every generated (or
cache-loaded) event, the query raises
`ValueError("insufficient samples for condition")` rather than returning an
empty or degenerate result. -/
theorem bayesnet_insufficient_samples {E : Type} (events : List E) (p : E → Bool)
    (find : Option (E → E)) (reduce_fn : Option (List E → E))
    (mean_fn : List E → E) (raw : Bool)
    (hall : ∀ e ∈ events, p e = false) :
    bayesnetQuery events (some p) find reduce_fn mean_fn raw
      = Except.error "insufficient samples for condition" := by
  have hfilter : events.filter p = [] := by
    rw [List.filter_eq_nil_iff]
    intro a ha
    simp [hall a ha]
  simp [bayesnetQuery, hfilter]

/-- Witness for C10: a concrete query whose condition rejects every event
raises the insufficient-samples error. -/
theorem bayesnet_insufficient_samples_witness :
    bayesnetQuery ([1, 2, 3] : List ℕ) (some fun _ => false) none none
        (fun _ => 0) false
      = Except.error "insufficient samples for condition" :=
  bayesnet_insufficient_samples ([1, 2, 3] : List ℕ) (fun _ => false) none none
    (fun _ => 0) false (fun _ _ => rfl)

end Squigglepy
